import Mathlib

/-!
# beepvoice/backend-webrtc: a shallow embedding of `main.go`

The server keeps three global maps

* `userTracks        : map[string]map[string]*webrtc.Track`
* `conversationUsers : map[string][]string`
* `userConversation  : map[string]string`

and has two routes, `/connect` (`NewConnection`) and `/join/:conversationid`
(`JoinConversation`), both wrapped in `GetAuth`.

Conventions of the embedding:

* a Go map with string keys is a function `String → Option V` (absent key = `none`);
  the inner client map of `userTracks`, the only map the program ranges over, is the
  list of its entries in the order the `range` statement visits them;
* a Go slice of strings is a `List String`;
* a handler returns `none` when the Go code panics at run time (index out of range,
  assignment to an entry of a nil map, failed type assertion);
* library calls (`json.Unmarshal`, `http.Get`, `track.Write`, `proto.Marshal`,
  `time.Now`) are parameters.
-/

namespace BeepWebrtc

/-! ## Data model -/

/-- Go map keyed by strings; an absent key is `none`. -/
abbrev GoMap (V : Type) := String → Option V

/-- Result of `make(map[string]V)`: no key is present. -/
def GoMap.empty {V : Type} : GoMap V := fun _ => none

/-- Map assignment `m[k] = v`. -/
def GoMap.set {V : Type} (m : GoMap V) (k : String) (v : V) : GoMap V :=
  fun k2 => if k2 = k then some v else m k2

/-- Identity decoded from the `X-User-Claim` header (`type RawClient struct`). -/
structure RawClient where
  UserId : String
  ClientId : String
deriving DecidableEq, Repr

/-- Outbound sink, a `*webrtc.Track`; the number stands for the pointer. -/
structure Track where
  id : Nat
deriving DecidableEq, Repr

/-- Packet payload, `rtpBuf[:i]`. -/
abbrev Bytes := List Nat

/-- Inner map of `userTracks`, client id to track, as the list of entries a `range`
over it visits, in visiting order. -/
abbrev Clients := List (String × Track)

/-- Global `userTracks`. -/
abbrev Registry := GoMap Clients

/-- Globals `userConversation` and `conversationUsers`. -/
structure Membership where
  userConversation : GoMap String
  conversationUsers : GoMap (List String)

/-- Maps as `main` creates them (lines 74-76). -/
def initRegistry : Registry := GoMap.empty

/-- Membership maps as `main` creates them (lines 75-76). -/
def initMembership : Membership := ⟨GoMap.empty, GoMap.empty⟩

/-- Value of `conversationUsers[c]` read as a slice: the nil slice when `c` is absent. -/
def Membership.members (m : Membership) (c : String) : List String :=
  (m.conversationUsers c).getD []

/-! ## HTTP plumbing -/

/-- What a handler wrote to its `http.ResponseWriter`. -/
structure Response where
  status : Nat
  body : String
deriving DecidableEq, Repr

/-- Table `http.StatusText` for the codes the program uses. -/
def StatusText (code : Nat) : String :=
  if code = 400 then "Bad Request"
  else if code = 401 then "Unauthorized"
  else if code = 500 then "Internal Server Error"
  else ""

/-- Call `http.Error(w, http.StatusText(code), code)`. -/
def httpError (code : Nat) : Response := ⟨code, StatusText code ++ "\n"⟩

/-- Incoming request: its headers and the value stored in its context under `"user"`. -/
structure Request where
  header : List (String × String)
  user : Option RawClient

/-- Lookup `r.Header.Get(key)`: the empty string when the header is absent. -/
def Request.headerGet (r : Request) (key : String) : String :=
  match r.header.find? (fun kv => kv.1 == key) with
  | some kv => kv.2
  | none => ""

/-- Type `httprouter.Handle` over a server state `σ`: `none` is a run-time panic. -/
abbrev Handle (σ : Type) := Request → σ → Option (Response × σ)

/-! ## GetAuth (lines 96-123) -/

/-- Middleware `GetAuth`; `unmarshal` is `json.Unmarshal` into a `RawClient`
(`none` when it returns an error). -/
def GetAuth {σ : Type} (unmarshal : String → Option RawClient) (next : Handle σ) :
    Handle σ := fun r s =>
  let ua := r.headerGet "X-User-Claim"
  if ua = "" then some (httpError 400, s)
  else
    match unmarshal ua with
    | none => some (httpError 400, s)
    | some client =>
      if client.UserId = "" ∨ client.ClientId = "" then some (httpError 400, s)
      else next { r with user := some client } s

/-! ## JoinConversation (lines 258-299) -/

/-- Outcome of `http.Get`: an error, or a response with its status code. -/
inductive GetResult where
  | transportError : GetResult
  | response (statusCode : Nat) : GetResult
deriving DecidableEq, Repr

/-- Search loop of lines 280-285 started at index `i`: the index of the first element
equal to `userId`, if there is one. -/
def scanUsers (userId : String) : List String → Nat → Option Nat
  | [], _ => none
  | u :: rest, i => if u = userId then some i else scanUsers userId rest (i + 1)

/-- Variable `lastIndex` after the loop of lines 279-285: declared as zero and
overwritten only when the user is found. -/
def lastIndexOfUser (users : List String) (userId : String) : Nat :=
  (scanUsers userId users 0).getD 0

/-- Lines 279-287: overwrite `users[lastIndex]` with the last element and cut the last
element off. `none` is the index-out-of-range panic of `users[len(users)-1]` on an
empty slice. -/
def removeUser (users : List String) (userId : String) : Option (List String) :=
  match users.getLast? with
  | none => none
  | some last => some ((users.set (lastIndexOfUser users userId) last).dropLast)

/-- Lines 276-289: the user leaves the conversation it is recorded in. -/
def leaveOld (m : Membership) (userId : String) : Option (GoMap (List String)) :=
  match m.userConversation userId with
  | some oldConversation =>
    match m.conversationUsers oldConversation with
    | some users =>
      match removeUser users userId with
      | some rest => some (m.conversationUsers.set oldConversation rest)
      | none => none
    | none => some m.conversationUsers
  | none => some m.conversationUsers

/-- Lines 291-296: record the new conversation and append the user to its list. -/
def populate (cu : GoMap (List String)) (uc : GoMap String) (userId conversationId : String) :
    Membership :=
  let cu1 := if (cu conversationId).isNone then cu.set conversationId [] else cu
  ⟨uc.set userId conversationId,
   cu1.set conversationId ((cu1 conversationId).getD [] ++ [userId])⟩

/-- Address the permission service is asked at (line 269). -/
def permissionURL (permissionsHost userId conversationId : String) : String :=
  permissionsHost ++ "/user/" ++ userId ++ "/conversation/" ++ conversationId

/-- Handler `JoinConversation`; `conversationid` is `p.ByName("conversationid")` and
`httpGet` is `http.Get`. -/
def JoinConversation (permissionsHost : String) (httpGet : String → GetResult)
    (conversationid : String) : Handle Membership := fun r m =>
  match r.user with
  | none => none
  | some user =>
    if conversationid = "" then some (httpError 400, m)
    else
      match httpGet (permissionURL permissionsHost user.UserId conversationid) with
      | .transportError => some (httpError 401, m)
      | .response _ =>
        match leaveOld m user.UserId with
        | none => none
        | some cu =>
          some (⟨200, ""⟩, populate cu m.userConversation user.UserId conversationid)

/-- One call of `JoinConversation`: who calls, which conversation, and what the
permission service answers to this call. -/
structure JoinCall where
  user : RawClient
  conversationid : String
  reply : GetResult

/-- Request as `GetAuth` hands it to the wrapped handler. -/
def authedRequest (user : RawClient) : Request := ⟨[], some user⟩

/-- Run one `JoinCall` on the membership maps. -/
def JoinCall.run (permissionsHost : String) (c : JoinCall) (m : Membership) :
    Option (Response × Membership) :=
  JoinConversation permissionsHost (fun _ => c.reply) c.conversationid (authedRequest c.user) m

/-- Calls of `JoinConversation` executed one after the other; `none` if one panics. -/
def runJoins (permissionsHost : String) : List JoinCall → Membership → Option Membership
  | [], m => some m
  | c :: rest, m =>
    match c.run permissionsHost m with
    | some (_, m2) => runJoins permissionsHost rest m2
    | none => none

/-! ## Registration of the sending track (line 222) -/

/-- Assignment `clients[clientId] = track` on an existing inner map: the value of an
existing key is replaced in place, a new key gets a new entry. -/
def Clients.assign : Clients → String → Track → Clients
  | [], clientId, track => [(clientId, track)]
  | (k, v) :: rest, clientId, track =>
    if k = clientId then (k, track) :: rest
    else (k, v) :: Clients.assign rest clientId track

/-- Value of `clients[clientId]` for an inner map. -/
def Clients.lookup (clients : Clients) (clientId : String) : Option Track :=
  (clients.find? (fun kv => kv.1 == clientId)).map Prod.snd

/-- Statement `userTracks[user.UserId][user.ClientId] = track`. The inner map is read
with `userTracks[user.UserId]`, which is the nil map when the user has no entry, and
assigning to an entry of a nil map panics (`none`). -/
def registerTrack (userTracks : Registry) (user : RawClient) (track : Track) :
    Option Registry :=
  match userTracks user.UserId with
  | none => none
  | some clients => some (userTracks.set user.UserId (clients.assign user.ClientId track))

/-! ## The forwarding loop of OnTrack (lines 169-210) -/

/-- Error value returned by `track.Write`: `io.ErrClosedPipe` or something else. -/
inductive WriteError where
  | closedPipe : WriteError
  | other (msg : String) : WriteError
deriving DecidableEq, Repr

/-- One call `track.Write(rtpBuf[:i])`: which registry entry it was made for, what was
written and the error that came back (`none` is `nil`). -/
structure WriteAttempt where
  user : String
  client : String
  track : Track
  data : Bytes
  err : Option WriteError
deriving DecidableEq, Repr

/-- Message `Bite` of the protobuf package. -/
structure Bite where
  Start : Nat
  Key : String
  Data : Bytes
deriving DecidableEq, Repr

/-- Message `Store` of the protobuf package; `Type_` is its field `Type`. -/
structure Store where
  Type_ : String
  Bite : Bite
deriving DecidableEq, Repr

/-- Library calls the loop body makes, over a state `σ` of the sinks: `write` is
`track.Write`, `marshalBite` and `marshalStore` are `proto.Marshal` (`none` when it
returns an error). -/
structure Env (σ : Type) where
  write : σ → Track → Bytes → Option WriteError × σ
  marshalBite : Bite → Option Bytes
  marshalStore : Store → Option Bytes

/-- Test of line 176: the error is neither `io.ErrClosedPipe` nor `nil`, so the loop
logs it and breaks. -/
def breaksLoop (err : Option WriteError) : Bool :=
  !(err == some WriteError.closedPipe || err == none)

/-- Inner loop, lines 173-181: range over one user's clients, skip the sender's own
entry, write to every other track, and leave the loop at the first error that is not
`io.ErrClosedPipe`. Returns the writes made, in order, and the sinks' state. -/
def writeClients {σ : Type} (env : Env σ) (sender : RawClient) (u : String) (pkt : Bytes) :
    Clients → σ → List WriteAttempt × σ
  | [], w => ([], w)
  | (client, track) :: rest, w =>
    if !(u == sender.UserId && client == sender.ClientId) then
      let r := env.write w track pkt
      let a : WriteAttempt := ⟨u, client, track, pkt, r.1⟩
      if breaksLoop r.1 then ([a], r.2)
      else
        let r2 := writeClients env sender u pkt rest r.2
        (a :: r2.1, r2.2)
    else writeClients env sender u pkt rest w

/-- Outer loop, lines 171-183: for each user of the conversation that has an entry in
`userTracks`, run the inner loop. -/
def writeUsers {σ : Type} (env : Env σ) (userTracks : Registry) (sender : RawClient)
    (pkt : Bytes) : List String → σ → List WriteAttempt × σ
  | [], w => ([], w)
  | u :: rest, w =>
    match userTracks u with
    | some clients =>
      let r := writeClients env sender u pkt clients w
      let r2 := writeUsers env userTracks sender pkt rest r.2
      (r.1 ++ r2.1, r2.2)
    | none => writeUsers env userTracks sender pkt rest w

/-- Effects of one pass of the loop body: the track writes, the messages handed to
`natsConn.Publish` as (subject, payload), and the sinks' state. -/
structure Pass (σ : Type) where
  writes : List WriteAttempt
  published : List (String × Bytes)
  sinks : σ

/-- Conversion `uint64(start)` of the `int64` Unix time. -/
def toUint64 (start : Int) : Nat := (start % 2 ^ 64).toNat

/-- Lines 186-209: build the `Bite`, publish it on `"bite"`, wrap it in a `Store` and
publish that on `"store"`; a marshalling error is logged and nothing is published for
that message. -/
def publishBite {σ : Type} (env : Env σ) (conversationId : String) (start : Int)
    (pkt : Bytes) : List (String × Bytes) :=
  let bite : Bite := ⟨toUint64 start, conversationId, pkt⟩
  let out1 := match env.marshalBite bite with
    | some biteOut => [("bite", biteOut)]
    | none => []
  let out2 := match env.marshalStore ⟨"bite", bite⟩ with
    | some storeOut => [("store", storeOut)]
    | none => []
  out1 ++ out2

/-- Body of the read loop after a successful `remoteTrack.Read`, lines 169-210, for the
connection of `sender`; `pkt` is `rtpBuf[:i]` and `start` is `time.Now().Unix()`. -/
def forwardPacket {σ : Type} (env : Env σ) (m : Membership) (userTracks : Registry)
    (sender : RawClient) (start : Int) (pkt : Bytes) (w : σ) : Pass σ :=
  match m.userConversation sender.UserId with
  | some conversationId =>
    let r := match m.conversationUsers conversationId with
      | some users => writeUsers env userTracks sender pkt users w
      | none => ([], w)
    ⟨r.1, publishBite env conversationId start pkt, r.2⟩
  | none => ⟨[], [], w⟩

/-- Registry entry `(v, d) ↦ t` the sender's packet has to be written to: `v` is in the
list `users`, the entry is in `userTracks`, and it is not the sender's own pair. -/
def Eligible (userTracks : Registry) (users : List String) (sender : RawClient)
    (v d : String) (t : Track) : Prop :=
  v ∈ users ∧ (∃ clients, userTracks v = some clients ∧ (d, t) ∈ clients) ∧
    ¬(v = sender.UserId ∧ d = sender.ClientId)

/-! ## ICE server list (lines 57-72) -/

/-- Scanner behind `Split` for a non-empty separator: `skip` counts the characters of
a separator just matched that are still to be passed over, `cur` is the current piece,
reversed. -/
def splitScan (sep : List Char) : List Char → Nat → List Char → List (List Char)
  | [], _, cur => [cur.reverse]
  | _ :: cs, skip + 1, cur => splitScan sep cs skip cur
  | c :: cs, 0, cur =>
    if sep.isPrefixOf (c :: cs) then cur.reverse :: splitScan sep cs (sep.length - 1) []
    else splitScan sep cs 0 (c :: cur)

/-- Function `strings.Split(s, sep)`: the pieces of `s` between the non-overlapping
occurrences of `sep`, found left to right; an empty `sep` splits after each character. -/
def Split (s sep : String) : List String :=
  if sep.toList = [] then s.toList.map (fun c => String.mk [c])
  else (splitScan sep.toList s.toList 0 []).map String.mk

/-- Separator of line 63. The Go source writes it as a raw string literal (between
back quotes), in which a backslash is an ordinary character: it is the two characters
backslash and `n`, not the line feed. -/
def iceSeparator : String := String.mk [Char.ofNat 92, 'n']

/-- Value of `servers`, the `URLs` of the only ICE server of `peerConnectionConfig`,
for the content `fileString` of `iceservers.txt`. -/
def iceServerURLs (fileString : String) : List String :=
  Split fileString iceSeparator

/-! ## Predicates used in the statements -/

/-- The two membership maps agree, and no conversation lists a user twice. -/
def Consistent (m : Membership) : Prop :=
  (∀ u c, u ∈ m.members c ↔ m.userConversation u = some c) ∧ ∀ c, (m.members c).Nodup

/-- Condition on `conversationUsers` after line 289, before `userConversation` is
updated: the lists hold exactly the users recorded in `uc` other than `userId`. -/
def Departed (cu : GoMap (List String)) (uc : GoMap String) (userId : String) : Prop :=
  (∀ v c, v ∈ (cu c).getD [] ↔ (v ≠ userId ∧ uc v = some c)) ∧ ∀ c, ((cu c).getD []).Nodup

/-- State of the sinks after `track.Write` has been applied, from state `w`, once for
each attempt of the list, in the order of the list, with the attempt's track and data. -/
def applyWrites {σ : Type} (env : Env σ) : List WriteAttempt → σ → σ
  | [], w => w
  | a :: rest, w => applyWrites env rest (env.write w a.track a.data).2

/-- Each attempt of the list is a call of `track.Write`: applied one after the other
from state `w`, every call returns the error the attempt records. -/
def Performed {σ : Type} (env : Env σ) : List WriteAttempt → σ → Prop
  | [], _ => True
  | a :: rest, w =>
    a.err = (env.write w a.track a.data).1 ∧
      Performed env rest (env.write w a.track a.data).2

/-! ## Concrete states used in the examples -/

/-- Registry with two connections of alice and two of bob. -/
def exampleRegistry : Registry :=
  (GoMap.empty.set "bob" [("d1", ⟨1⟩), ("d2", ⟨2⟩)]).set "alice" [("c0", ⟨0⟩), ("c1", ⟨3⟩)]

/-- Membership maps with alice and bob in conversation "room". -/
def exampleMembership : Membership :=
  ⟨(GoMap.empty.set "alice" "room").set "bob" "room", GoMap.empty.set "room" ["alice", "bob"]⟩

/-- Library calls in which the write to track 1 returns `err` and every other write
succeeds. -/
def failingEnv (err : WriteError) : Env Unit :=
  ⟨fun w t _ => (if t.id = 1 then some err else none, w), fun b => some b.Data,
   fun s => some s.Bite.Data⟩

/-- Library calls over sinks that keep what they are handed: the state is the list of
(track, data) pairs `track.Write` was called with, oldest first, and the write to the
track numbered `n` returns `fails n`. -/
def recordingEnv (fails : Nat → Option WriteError) : Env (List (Track × Bytes)) :=
  ⟨fun w t b => (fails t.id, w ++ [(t, b)]), fun b => some b.Data,
   fun s => some s.Bite.Data⟩

/-- Outcome table in which the write to track 1 returns an error other than
`io.ErrClosedPipe` and every other write succeeds. -/
def failsOnTrackOne (n : Nat) : Option WriteError :=
  if n = 1 then some (.other "short write") else none

/-- Decoder standing for `json.Unmarshal` in the examples: it knows one claim. -/
def exampleUnmarshal (ua : String) : Option RawClient :=
  if ua = "\x7b\"userid\":\"alice\",\"clientid\":\"c1\"\x7d" then some ⟨"alice", "c1"⟩
  else none

/-- Request carrying the claim of alice's connection "c1". -/
def exampleRequest : Request :=
  ⟨[("X-User-Claim", "\x7b\"userid\":\"alice\",\"clientid\":\"c1\"\x7d")], none⟩

/-- Membership maps in which alice is recorded in "x" but the list of "x" holds only
bob. -/
def staleMembership : Membership :=
  ⟨(GoMap.empty.set "alice" "x").set "bob" "x", GoMap.empty.set "x" ["bob"]⟩

/-- Membership maps in which alice is recorded in "x" and the list of "x" is empty. -/
def staleEmptyMembership : Membership :=
  ⟨GoMap.empty.set "alice" "x", GoMap.empty.set "x" []⟩

/-! ## Lemmas on the membership maps -/

theorem GoMap.set_same {V : Type} (m : GoMap V) (k : String) (v : V) :
    (m.set k v) k = some v := by
  simp [GoMap.set]

theorem GoMap.set_other {V : Type} (m : GoMap V) (k k2 : String) (v : V) (h : k2 ≠ k) :
    (m.set k v) k2 = m k2 := by
  simp [GoMap.set, h]

theorem scanUsers_found (userId : String) (pre post : List String) (i : Nat)
    (hpre : userId ∉ pre) :
    scanUsers userId (pre ++ userId :: post) i = some (i + pre.length) := by
  induction pre generalizing i with
  | nil => simp [scanUsers]
  | cons x xs ih =>
    have hx : x ≠ userId := fun h => hpre (by simp [h])
    have hxs : userId ∉ xs := fun h => hpre (by simp [h])
    show scanUsers userId (x :: (xs ++ userId :: post)) i = _
    rw [scanUsers, if_neg hx, ih (i + 1) hxs, List.length_cons, Nat.add_assoc,
      Nat.add_comm 1]

theorem scanUsers_absent (userId : String) (users : List String) (i : Nat)
    (h : userId ∉ users) : scanUsers userId users i = none := by
  induction users generalizing i with
  | nil => rfl
  | cons x xs ih =>
    have hx : x ≠ userId := fun e => h (by simp [e])
    have hxs : userId ∉ xs := fun e => h (by simp [e])
    simp [scanUsers, hx, ih (i + 1) hxs]

/-- Swap-removal of a user that is in the list: the call returns, and the result is the
list without one occurrence of the user, up to order. -/
theorem removeUser_perm (users : List String) (userId : String) (h : userId ∈ users) :
    ∃ rest, removeUser users userId = some rest ∧ (userId :: rest).Perm users := by
  classical
  obtain ⟨pre, post, hsplit, hpre⟩ : ∃ pre post, users = pre ++ userId :: post ∧ userId ∉ pre := by
    induction users with
    | nil => simp at h
    | cons x xs ih =>
      by_cases hx : x = userId
      · exact ⟨[], xs, by simp [hx], by simp⟩
      · have hxs : userId ∈ xs := by
          rcases List.mem_cons.mp h with e | e
          · exact absurd e.symm hx
          · exact e
        obtain ⟨pre, post, e, hp⟩ := ih hxs
        refine ⟨x :: pre, post, by simp [e], ?_⟩
        intro hm
        rcases List.mem_cons.mp hm with e2 | e2
        · exact hx e2.symm
        · exact hp e2
  subst hsplit
  have hidx : lastIndexOfUser (pre ++ userId :: post) userId = pre.length := by
    simp [lastIndexOfUser, scanUsers_found userId pre post 0 hpre]
  rcases List.eq_nil_or_concat post with hpost | ⟨init, z, hpost⟩
  · subst hpost
    refine ⟨pre, ?_, ?_⟩
    · simp [removeUser, hidx, List.set_append]
    · exact (List.perm_append_singleton userId pre).symm
  · subst hpost
    refine ⟨pre ++ z :: init, ?_, ?_⟩
    · have hlast : (pre ++ userId :: init.concat z).getLast? = some z := by
        have : pre ++ userId :: init.concat z = (pre ++ userId :: init) ++ [z] := by simp
        rw [this, List.getLast?_concat]
      have hset : (pre ++ userId :: init.concat z).set pre.length z =
          (pre ++ z :: init) ++ [z] := by
        simp [List.set_append]
      simp only [removeUser, hlast, hidx, hset, List.dropLast_concat]
    · have h1 : (userId :: (pre ++ z :: init)).Perm (pre ++ userId :: (z :: init)) :=
        (@List.perm_middle _ userId pre (z :: init)).symm
      refine h1.trans (List.Perm.append_left pre (List.Perm.cons userId ?_))
      simpa using (List.perm_append_singleton z init).symm

/-- Swap-removal of a user that is not in a non-empty list: `lastIndex` stays zero, so
the call returns the list without its first element, up to order. -/
theorem removeUser_absent (x : String) (xs : List String) (userId : String)
    (h : userId ∉ x :: xs) :
    ∃ rest, removeUser (x :: xs) userId = some rest ∧ (x :: rest).Perm (x :: xs) := by
  have hidx : lastIndexOfUser (x :: xs) userId = 0 := by
    simp [lastIndexOfUser, scanUsers_absent userId (x :: xs) 0 h]
  rcases List.eq_nil_or_concat xs with hxs | ⟨front, z, hxs⟩
  · subst hxs
    exact ⟨[], by simp [removeUser, hidx], List.Perm.refl _⟩
  · subst hxs
    refine ⟨z :: front, ?_, ?_⟩
    · have hlast : (x :: front.concat z).getLast? = some z := by
        have : x :: front.concat z = (x :: front) ++ [z] := by simp
        rw [this, List.getLast?_concat]
      have hset : (x :: front.concat z).set 0 z = (z :: front) ++ [z] := by simp
      simp only [removeUser, hlast, hidx, hset, List.dropLast_concat]
    · refine List.Perm.cons x ?_
      simpa using (List.perm_append_singleton z front).symm

theorem init_consistent : Consistent initMembership := by
  constructor
  · intro u c
    simp [initMembership, Membership.members, GoMap.empty]
  · intro c
    simp [initMembership, Membership.members, GoMap.empty]

theorem leaveOld_spec (m : Membership) (userId : String) (h : Consistent m) :
    ∃ cu, leaveOld m userId = some cu ∧ Departed cu m.userConversation userId := by
  obtain ⟨hiff, hnd⟩ := h
  unfold leaveOld
  cases hUC : m.userConversation userId with
  | none =>
    refine ⟨m.conversationUsers, rfl, ?_, hnd⟩
    intro v c
    constructor
    · intro hv
      have hvc := (hiff v c).mp hv
      refine ⟨?_, hvc⟩
      rintro rfl
      rw [hUC] at hvc
      exact Option.noConfusion hvc
    · rintro ⟨_, hvc⟩
      exact (hiff v c).mpr hvc
  | some old =>
    have hmem : userId ∈ m.members old := (hiff userId old).mpr hUC
    cases hCU : m.conversationUsers old with
    | none => simp [Membership.members, hCU] at hmem
    | some users =>
      have hmo : m.members old = users := by simp [Membership.members, hCU]
      rw [hmo] at hmem
      obtain ⟨rest, hrm, hperm⟩ := removeUser_perm users userId hmem
      have hndu : users.Nodup := hmo ▸ hnd old
      have hnd2 : (userId :: rest).Nodup := hperm.nodup_iff.mpr hndu
      have hnotin : userId ∉ rest := (List.nodup_cons.mp hnd2).1
      refine ⟨m.conversationUsers.set old rest, by simp [hCU, hrm], ?_, ?_⟩
      · intro v c
        by_cases hc : c = old
        · subst hc
          rw [GoMap.set_same]
          simp only [Option.getD_some]
          constructor
          · intro hv
            refine ⟨fun e => hnotin (e ▸ hv), ?_⟩
            have : v ∈ users := hperm.mem_iff.mp (List.mem_cons_of_mem _ hv)
            exact (hiff v c).mp (hmo ▸ this)
          · rintro ⟨hne, hvc⟩
            have hvu : v ∈ users := hmo ▸ (hiff v c).mpr hvc
            rcases List.mem_cons.mp (hperm.mem_iff.mpr hvu) with e | e
            · exact absurd e hne
            · exact e
        · rw [GoMap.set_other _ _ _ _ hc]
          constructor
          · intro hv
            have hvc := (hiff v c).mp hv
            refine ⟨?_, hvc⟩
            rintro rfl
            rw [hUC] at hvc
            exact hc (Option.some.inj hvc).symm
          · rintro ⟨_, hvc⟩
            exact (hiff v c).mpr hvc
      · intro c
        by_cases hc : c = old
        · subst hc
          rw [GoMap.set_same]
          exact (List.nodup_cons.mp hnd2).2
        · rw [GoMap.set_other _ _ _ _ hc]
          exact hnd c

theorem populate_members (cu : GoMap (List String)) (uc : GoMap String)
    (userId conversationId c : String) :
    (populate cu uc userId conversationId).members c =
      if c = conversationId then (cu conversationId).getD [] ++ [userId]
      else (cu c).getD [] := by
  unfold populate Membership.members
  by_cases hc : c = conversationId
  · subst hc
    cases h : cu c <;> simp [GoMap.set, h]
  · cases h : cu conversationId <;> simp [GoMap.set, h, hc]

theorem populate_user (cu : GoMap (List String)) (uc : GoMap String)
    (userId conversationId v : String) :
    (populate cu uc userId conversationId).userConversation v =
      if v = userId then some conversationId else uc v := by
  simp [populate, GoMap.set]

theorem populate_spec (cu : GoMap (List String)) (uc : GoMap String)
    (userId conversationId : String) (h : Departed cu uc userId) :
    Consistent (populate cu uc userId conversationId) := by
  obtain ⟨hiff, hnd⟩ := h
  constructor
  · intro v c
    rw [populate_members, populate_user]
    by_cases hc : c = conversationId
    · subst hc
      by_cases hv : v = userId
      · simp [hv]
      · simp [hv, hiff v c]
    · by_cases hv : v = userId
      · subst hv
        simp only [hc, if_false, if_true]
        constructor
        · intro hm
          exact absurd rfl ((hiff v c).mp hm).1
        · intro e
          exact absurd (Option.some.inj e).symm hc
      · simp [hc, hv, hiff v c]
  · intro c
    rw [populate_members]
    by_cases hc : c = conversationId
    · subst hc
      simp only [if_true]
      refine List.Nodup.append (hnd c) (List.nodup_singleton _) ?_
      intro x hx hx2
      rw [List.mem_singleton] at hx2
      subst hx2
      exact ((hiff x c).mp hx).1 rfl
    · simp only [hc, if_false]
      exact hnd c

/-- A permitted join in a consistent state returns 200 with an empty body and leaves a
consistent state in which the user is recorded in the conversation joined. -/
theorem join_permitted (permissionsHost : String) (httpGet : String → GetResult)
    (user : RawClient) (conversationid : String) (st : Nat) (m : Membership)
    (hm : Consistent m) (hid : conversationid ≠ "")
    (hget : httpGet (permissionURL permissionsHost user.UserId conversationid) = .response st) :
    ∃ m2, JoinConversation permissionsHost httpGet conversationid (authedRequest user) m =
        some (⟨200, ""⟩, m2) ∧ Consistent m2 ∧
      m2.userConversation user.UserId = some conversationid := by
  obtain ⟨cu, hcu, hdep⟩ := leaveOld_spec m user.UserId hm
  refine ⟨populate cu m.userConversation user.UserId conversationid, ?_,
    populate_spec _ _ _ _ hdep, by simp [populate_user]⟩
  simp [JoinConversation, authedRequest, hid, hget, hcu]

theorem run_consistent (permissionsHost : String) (c : JoinCall) (m : Membership)
    (hm : Consistent m) :
    ∃ resp m2, c.run permissionsHost m = some (resp, m2) ∧ Consistent m2 := by
  by_cases hid : c.conversationid = ""
  · exact ⟨httpError 400, m, by simp [JoinCall.run, JoinConversation, authedRequest, hid], hm⟩
  · cases hr : c.reply with
    | transportError =>
      exact ⟨httpError 401, m,
        by simp [JoinCall.run, JoinConversation, authedRequest, hid, hr], hm⟩
    | response st =>
      obtain ⟨m2, h2, hc2, _⟩ :=
        join_permitted permissionsHost (fun _ => c.reply) c.user c.conversationid st m hm hid hr
      exact ⟨_, m2, h2, hc2⟩

theorem runJoins_consistent (permissionsHost : String) (calls : List JoinCall)
    (m : Membership) (hm : Consistent m) :
    ∃ m2, runJoins permissionsHost calls m = some m2 ∧ Consistent m2 := by
  induction calls generalizing m with
  | nil => exact ⟨m, rfl, hm⟩
  | cons c rest ih =>
    obtain ⟨resp, m1, h1, hc1⟩ := run_consistent permissionsHost c m hm
    obtain ⟨m2, h2, hc2⟩ := ih m1 hc1
    exact ⟨m2, by simp [runJoins, h1, h2], hc2⟩

/-! ## Lemmas on the forwarding loop -/

theorem breaksLoop_iff (err : Option WriteError) :
    breaksLoop err = true ↔ err ≠ none ∧ err ≠ some WriteError.closedPipe := by
  cases err with
  | none => simp [breaksLoop]
  | some e => cases e <;> simp [breaksLoop]

theorem notSelf_true (u client : String) (sender : RawClient)
    (h : ¬(u = sender.UserId ∧ client = sender.ClientId)) :
    (!(u == sender.UserId && client == sender.ClientId)) = true := by
  by_cases h1 : u = sender.UserId <;> by_cases h2 : client = sender.ClientId <;> simp_all

/-- Every write of the inner loop is made for an entry of the client map other than the
sender's own, carries the packet, and reports what `track.Write` returned. -/
theorem writeClients_sound {σ : Type} (env : Env σ) (sender : RawClient) (u : String)
    (pkt : Bytes) (clients : Clients) (w : σ) (a : WriteAttempt)
    (ha : a ∈ (writeClients env sender u pkt clients w).1) :
    a.user = u ∧ (a.client, a.track) ∈ clients ∧
      ¬(u = sender.UserId ∧ a.client = sender.ClientId) ∧ a.data = pkt ∧
      ∃ w0, a.err = (env.write w0 a.track pkt).1 := by
  induction clients generalizing w with
  | nil => simp [writeClients] at ha
  | cons kv rest ih =>
    obtain ⟨client, track⟩ := kv
    unfold writeClients at ha
    by_cases hself : u = sender.UserId ∧ client = sender.ClientId
    · have hb : (!(u == sender.UserId && client == sender.ClientId)) = false := by
        simp [hself.1, hself.2]
      simp only [hb] at ha
      obtain ⟨h1, h2, h3⟩ := ih w ha
      exact ⟨h1, List.mem_cons_of_mem _ h2, h3⟩
    · have hb : (!(u == sender.UserId && client == sender.ClientId)) = true :=
        notSelf_true _ _ _ hself
      simp only [hb, if_true] at ha
      have hhead : ∀ b : WriteAttempt, b = ⟨u, client, track, pkt, (env.write w track pkt).1⟩ →
          b.user = u ∧ (b.client, b.track) ∈ (client, track) :: rest ∧
          ¬(u = sender.UserId ∧ b.client = sender.ClientId) ∧ b.data = pkt ∧
          ∃ w0, b.err = (env.write w0 b.track pkt).1 := by
        rintro b rfl
        exact ⟨rfl, List.mem_cons_self _ _, hself, rfl, w, rfl⟩
      by_cases hbr : breaksLoop (env.write w track pkt).1 = true
      · simp only [hbr, if_true, List.mem_singleton] at ha
        exact hhead a ha
      · simp only [hbr] at ha
        rcases List.mem_cons.mp ha with e | e
        · exact hhead a e
        · obtain ⟨h1, h2, h3⟩ := ih _ e
          exact ⟨h1, List.mem_cons_of_mem _ h2, h3⟩

/-- An entry of the client map other than the sender's own is written to, unless a
write to an entry visited before it broke the loop. -/
theorem writeClients_complete {σ : Type} (env : Env σ) (sender : RawClient) (u : String)
    (pkt : Bytes) (pre post : Clients) (d : String) (t : Track) (w : σ)
    (hself : ¬(u = sender.UserId ∧ d = sender.ClientId)) :
    (∃ a ∈ (writeClients env sender u pkt (pre ++ (d, t) :: post) w).1,
        a.user = u ∧ a.client = d ∧ a.track = t ∧ a.data = pkt) ∨
    (∃ a ∈ (writeClients env sender u pkt (pre ++ (d, t) :: post) w).1,
        a.user = u ∧ (a.client, a.track) ∈ pre ∧ breaksLoop a.err = true) := by
  induction pre generalizing w with
  | nil =>
    left
    have hb : (!(u == sender.UserId && d == sender.ClientId)) = true :=
      notSelf_true _ _ _ hself
    refine ⟨⟨u, d, t, pkt, (env.write w t pkt).1⟩, ?_, rfl, rfl, rfl, rfl⟩
    simp only [List.nil_append, writeClients, hb, if_true]
    by_cases hbr : breaksLoop (env.write w t pkt).1 = true
    · simp [hbr]
    · simp [hbr]
  | cons kv pre ih =>
    obtain ⟨client, track⟩ := kv
    show (∃ a ∈ (writeClients env sender u pkt ((client, track) :: (pre ++ (d, t) :: post)) w).1,
        _) ∨ (∃ a ∈ (writeClients env sender u pkt
          ((client, track) :: (pre ++ (d, t) :: post)) w).1, _)
    unfold writeClients
    by_cases hs : u = sender.UserId ∧ client = sender.ClientId
    · have hb : (!(u == sender.UserId && client == sender.ClientId)) = false := by
        simp [hs.1, hs.2]
      simp only [hb]
      rcases ih w with ⟨a, ha, h⟩ | ⟨a, ha, h1, h2, h3⟩
      · exact Or.inl ⟨a, ha, h⟩
      · exact Or.inr ⟨a, ha, h1, List.mem_cons_of_mem _ h2, h3⟩
    · have hb : (!(u == sender.UserId && client == sender.ClientId)) = true :=
        notSelf_true _ _ _ hs
      simp only [hb, if_true]
      by_cases hbr : breaksLoop (env.write w track pkt).1 = true
      · right
        refine ⟨⟨u, client, track, pkt, (env.write w track pkt).1⟩, ?_, rfl,
          List.mem_cons_self _ _, hbr⟩
        simp [hbr]
      · simp only [hbr]
        rcases ih (env.write w track pkt).2 with ⟨a, ha, h⟩ | ⟨a, ha, h1, h2, h3⟩
        · exact Or.inl ⟨a, List.mem_cons_of_mem _ ha, h⟩
        · exact Or.inr ⟨a, List.mem_cons_of_mem _ ha, h1, List.mem_cons_of_mem _ h2, h3⟩

theorem writeUsers_sound {σ : Type} (env : Env σ) (userTracks : Registry)
    (sender : RawClient) (pkt : Bytes) (users : List String) (w : σ) (a : WriteAttempt)
    (ha : a ∈ (writeUsers env userTracks sender pkt users w).1) :
    Eligible userTracks users sender a.user a.client a.track ∧ a.data = pkt ∧
      ∃ w0, a.err = (env.write w0 a.track pkt).1 := by
  induction users generalizing w with
  | nil => simp [writeUsers] at ha
  | cons u rest ih =>
    have lift : (Eligible userTracks rest sender a.user a.client a.track ∧ a.data = pkt ∧
        ∃ w0, a.err = (env.write w0 a.track pkt).1) →
        Eligible userTracks (u :: rest) sender a.user a.client a.track ∧ a.data = pkt ∧
        ∃ w0, a.err = (env.write w0 a.track pkt).1 := by
      rintro ⟨⟨h1, h2, h3⟩, h4⟩
      exact ⟨⟨List.mem_cons_of_mem _ h1, h2, h3⟩, h4⟩
    unfold writeUsers at ha
    cases hreg : userTracks u with
    | none =>
      simp only [hreg] at ha
      exact lift (ih w ha)
    | some clients =>
      simp only [hreg] at ha
      rcases List.mem_append.mp ha with e | e
      · obtain ⟨h1, h2, h3, h4, h5⟩ := writeClients_sound env sender u pkt clients w a e
        refine ⟨⟨?_, ⟨clients, ?_, h2⟩, ?_⟩, h4, h5⟩
        · rw [h1]; exact List.mem_cons_self _ _
        · rw [h1]; exact hreg
        · rw [h1]; exact h3
      · exact lift (ih _ e)

theorem writeUsers_complete {σ : Type} (env : Env σ) (userTracks : Registry)
    (sender : RawClient) (pkt : Bytes) (users : List String) (w : σ)
    (v : String) (pre post : Clients) (d : String) (t : Track)
    (hv : v ∈ users) (hreg : userTracks v = some (pre ++ (d, t) :: post))
    (hself : ¬(v = sender.UserId ∧ d = sender.ClientId)) :
    (∃ a ∈ (writeUsers env userTracks sender pkt users w).1,
        a.user = v ∧ a.client = d ∧ a.track = t ∧ a.data = pkt) ∨
    (∃ a ∈ (writeUsers env userTracks sender pkt users w).1,
        a.user = v ∧ (a.client, a.track) ∈ pre ∧ breaksLoop a.err = true) := by
  induction users generalizing w with
  | nil => simp at hv
  | cons u rest ih =>
    unfold writeUsers
    by_cases huv : v = u
    · subst huv
      simp only [hreg]
      rcases writeClients_complete env sender v pkt pre post d t w hself with
        ⟨a, ha, h⟩ | ⟨a, ha, h⟩
      · exact Or.inl ⟨a, List.mem_append_left _ ha, h⟩
      · exact Or.inr ⟨a, List.mem_append_left _ ha, h⟩
    · have hv2 : v ∈ rest := by
        rcases List.mem_cons.mp hv with e | e
        · exact absurd e huv
        · exact e
      cases hu : userTracks u with
      | none =>
        simp only []
        exact ih w hv2
      | some clients =>
        simp only []
        rcases ih (writeClients env sender u pkt clients w).2 hv2 with
          ⟨a, ha, h⟩ | ⟨a, ha, h⟩
        · exact Or.inl ⟨a, List.mem_append_right _ ha, h⟩
        · exact Or.inr ⟨a, List.mem_append_right _ ha, h⟩

theorem applyWrites_append {σ : Type} (env : Env σ) (l1 l2 : List WriteAttempt) (w : σ) :
    applyWrites env (l1 ++ l2) w = applyWrites env l2 (applyWrites env l1 w) := by
  induction l1 generalizing w with
  | nil => rfl
  | cons a rest ih => exact ih _

theorem performed_append {σ : Type} (env : Env σ) (l1 l2 : List WriteAttempt) (w : σ)
    (h1 : Performed env l1 w) (h2 : Performed env l2 (applyWrites env l1 w)) :
    Performed env (l1 ++ l2) w := by
  induction l1 generalizing w with
  | nil => exact h2
  | cons a rest ih => exact ⟨h1.1, ih _ h1.2 h2⟩

/-- The inner loop returns the sinks as its calls of `track.Write` leave them, and its
list of writes is the list of those calls. -/
theorem writeClients_run {σ : Type} (env : Env σ) (sender : RawClient) (u : String)
    (pkt : Bytes) (clients : Clients) (w : σ) :
    (writeClients env sender u pkt clients w).2 =
        applyWrites env (writeClients env sender u pkt clients w).1 w ∧
      Performed env (writeClients env sender u pkt clients w).1 w := by
  induction clients generalizing w with
  | nil => exact ⟨rfl, trivial⟩
  | cons kv rest ih =>
    obtain ⟨client, track⟩ := kv
    unfold writeClients
    by_cases hb : (!(u == sender.UserId && client == sender.ClientId)) = true
    · simp only [hb, if_true]
      by_cases hbr : breaksLoop (env.write w track pkt).1 = true
      · simp only [hbr, if_true]
        exact ⟨rfl, rfl, trivial⟩
      · simp only [hbr]
        obtain ⟨h1, h2⟩ := ih (env.write w track pkt).2
        exact ⟨h1, rfl, h2⟩
    · simp only [hb]
      exact ih w

theorem writeUsers_run {σ : Type} (env : Env σ) (userTracks : Registry)
    (sender : RawClient) (pkt : Bytes) (users : List String) (w : σ) :
    (writeUsers env userTracks sender pkt users w).2 =
        applyWrites env (writeUsers env userTracks sender pkt users w).1 w ∧
      Performed env (writeUsers env userTracks sender pkt users w).1 w := by
  induction users generalizing w with
  | nil => exact ⟨rfl, trivial⟩
  | cons u rest ih =>
    unfold writeUsers
    cases hreg : userTracks u with
    | none =>
      simp only []
      exact ih w
    | some clients =>
      simp only []
      obtain ⟨h1, h2⟩ := writeClients_run env sender u pkt clients w
      obtain ⟨h3, h4⟩ := ih (writeClients env sender u pkt clients w).2
      constructor
      · rw [applyWrites_append, ← h1]
        exact h3
      · refine performed_append env _ _ w h2 ?_
        rw [← h1]
        exact h4

/-- Sinks of one pass when the sender is recorded in conversation `C`. -/
theorem forwardPacket_sinks {σ : Type} (env : Env σ) (m : Membership)
    (userTracks : Registry) (sender : RawClient) (start : Int) (pkt : Bytes) (w : σ)
    (C : String) (hconv : m.userConversation sender.UserId = some C) :
    (forwardPacket env m userTracks sender start pkt w).sinks =
      (writeUsers env userTracks sender pkt (m.members C) w).2 := by
  unfold forwardPacket Membership.members
  simp only [hconv]
  cases h : m.conversationUsers C with
  | none => simp [writeUsers]
  | some users => simp

/-- Writes of one pass when the sender is recorded in conversation `C`. -/
theorem forwardPacket_writes {σ : Type} (env : Env σ) (m : Membership)
    (userTracks : Registry) (sender : RawClient) (start : Int) (pkt : Bytes) (w : σ)
    (C : String) (hconv : m.userConversation sender.UserId = some C) :
    (forwardPacket env m userTracks sender start pkt w).writes =
      (writeUsers env userTracks sender pkt (m.members C) w).1 := by
  unfold forwardPacket Membership.members
  simp only [hconv]
  cases h : m.conversationUsers C with
  | none => simp [writeUsers]
  | some users => simp

/-! ## Conversation membership: the claims -/

/-- Claim C3. Whatever sequence of `JoinConversation` calls is executed one after the
other from the maps `main` creates (any users, any conversation ids, the empty one and
repeated ones included, any answer of the permission service), every call returns and
in the state reached a user occurs in `conversationUsers[c]` if and only if
`userConversation` maps the user to `c`; hence no user is in the lists of two
conversations. -/
theorem membership_index_consistent (permissionsHost : String) (calls : List JoinCall) :
    ∃ m, runJoins permissionsHost calls initMembership = some m ∧
      (∀ u c, u ∈ m.members c ↔ m.userConversation u = some c) ∧
      (∀ u c1 c2, u ∈ m.members c1 → u ∈ m.members c2 → c1 = c2) := by
  obtain ⟨m, hrun, hiff, _⟩ :=
    runJoins_consistent permissionsHost calls initMembership init_consistent
  refine ⟨m, hrun, hiff, ?_⟩
  intro u c1 c2 h1 h2
  have e1 := (hiff u c1).mp h1
  have e2 := (hiff u c2).mp h2
  rw [e1] at e2
  exact Option.some.inj e2

/-- Claim C2. From a state `m0` reached by any sequence of joins, a permitted join of
user `uid` to `C` returns 200 and leaves `userConversation[uid] = C` with `uid` in
`conversationUsers[C]`; after any further calls `between` and a permitted join of `uid`
to `C2 ≠ C`, which again returns 200, `uid` is not in `conversationUsers[C]`, occurs
exactly once in `conversationUsers[C2]`, and `userConversation[uid] = C2`. -/
theorem join_then_rejoin (permissionsHost : String) (httpGet : String → GetResult)
    (calls between : List JoinCall) (uid cl1 cl2 C C2 : String) (st1 st2 : Nat)
    (hC : C ≠ "") (hC2 : C2 ≠ "") (hne : C ≠ C2)
    (h1 : httpGet (permissionURL permissionsHost uid C) = .response st1)
    (h2 : httpGet (permissionURL permissionsHost uid C2) = .response st2) :
    ∃ m0 m1 m1b m2,
      runJoins permissionsHost calls initMembership = some m0 ∧
      JoinConversation permissionsHost httpGet C (authedRequest ⟨uid, cl1⟩) m0 =
        some (⟨200, ""⟩, m1) ∧
      m1.userConversation uid = some C ∧ uid ∈ m1.members C ∧
      runJoins permissionsHost between m1 = some m1b ∧
      JoinConversation permissionsHost httpGet C2 (authedRequest ⟨uid, cl2⟩) m1b =
        some (⟨200, ""⟩, m2) ∧
      uid ∉ m2.members C ∧ (m2.members C2).count uid = 1 ∧
      m2.userConversation uid = some C2 := by
  obtain ⟨m0, hrun0, hc0⟩ :=
    runJoins_consistent permissionsHost calls initMembership init_consistent
  obtain ⟨m1, hj1, hc1, hu1⟩ :=
    join_permitted permissionsHost httpGet ⟨uid, cl1⟩ C st1 m0 hc0 hC h1
  obtain ⟨m1b, hrun1, hc1b⟩ := runJoins_consistent permissionsHost between m1 hc1
  obtain ⟨m2, hj2, hc2, hu2⟩ :=
    join_permitted permissionsHost httpGet ⟨uid, cl2⟩ C2 st2 m1b hc1b hC2 h2
  refine ⟨m0, m1, m1b, m2, hrun0, hj1, hu1, (hc1.1 uid C).mpr hu1, hrun1, hj2, ?_, ?_, hu2⟩
  · intro hmem
    have e := (hc2.1 uid C).mp hmem
    rw [hu2] at e
    exact hne (Option.some.inj e).symm
  · exact List.count_eq_one_of_mem (hc2.2 C2) ((hc2.1 uid C2).mpr hu2)

/-- Example for claim C2: alice joins "x", bob joins "x", alice joins "y". -/
theorem join_then_rejoin_witness :
    ("x" ≠ "" ∧ "y" ≠ "" ∧ "x" ≠ "y") ∧
    ∃ m0 m1 m1b m2,
      runJoins "http://perm" [] initMembership = some m0 ∧
      JoinConversation "http://perm" (fun _ => .response 200) "x"
        (authedRequest ⟨"alice", "c1"⟩) m0 = some (⟨200, ""⟩, m1) ∧
      m1.userConversation "alice" = some "x" ∧ "alice" ∈ m1.members "x" ∧
      runJoins "http://perm" [⟨⟨"bob", "d1"⟩, "x", .response 200⟩] m1 = some m1b ∧
      JoinConversation "http://perm" (fun _ => .response 200) "y"
        (authedRequest ⟨"alice", "c2"⟩) m1b = some (⟨200, ""⟩, m2) ∧
      "alice" ∉ m2.members "x" ∧ (m2.members "y").count "alice" = 1 ∧
      m2.userConversation "alice" = some "y" :=
  ⟨by decide,
   join_then_rejoin "http://perm" (fun _ => .response 200) []
     [⟨⟨"bob", "d1"⟩, "x", .response 200⟩] "alice" "c1" "c2" "x" "y" 200 200
     (by decide) (by decide) (by decide) rfl rfl⟩

/-! ## The forwarding loop: the claims -/

/-- Claim C1. When `userConversation` maps the sender's user to `C` and every
`track.Write` succeeds, the writes of one pass of the forwarding loop are exactly the
writes of the packet to the registry entries `(v, d)` with `v` in `conversationUsers[C]`
other than the sender's own pair: each such entry is written the packet, nothing is
written for a user outside `conversationUsers[C]` or for the sender's own pair, and the
entries of the sender's other client ids are written to when the sender is listed.
These writes are the calls of `track.Write` the pass makes: the sinks are left as those
calls, applied in order from the state before the pass, leave them, and each call
returned what the write records. -/
theorem fanout_delivery_set {σ : Type} (env : Env σ) (m : Membership)
    (userTracks : Registry) (sender : RawClient) (start : Int) (pkt : Bytes) (w : σ)
    (C : String) (hconv : m.userConversation sender.UserId = some C)
    (hok : ∀ w0 t b, (env.write w0 t b).1 = none) :
    (∀ a, a ∈ (forwardPacket env m userTracks sender start pkt w).writes ↔
      (Eligible userTracks (m.members C) sender a.user a.client a.track ∧
        a.data = pkt ∧ a.err = none)) ∧
    (∀ d t clients, sender.UserId ∈ m.members C →
      userTracks sender.UserId = some clients → (d, t) ∈ clients → d ≠ sender.ClientId →
      (⟨sender.UserId, d, t, pkt, none⟩ : WriteAttempt) ∈
        (forwardPacket env m userTracks sender start pkt w).writes) ∧
    (forwardPacket env m userTracks sender start pkt w).sinks =
      applyWrites env (forwardPacket env m userTracks sender start pkt w).writes w ∧
    Performed env (forwardPacket env m userTracks sender start pkt w).writes w := by
  rw [forwardPacket_sinks env m userTracks sender start pkt w C hconv,
    forwardPacket_writes env m userTracks sender start pkt w C hconv]
  have key : ∀ a : WriteAttempt,
      (Eligible userTracks (m.members C) sender a.user a.client a.track ∧
        a.data = pkt ∧ a.err = none) →
      a ∈ (writeUsers env userTracks sender pkt (m.members C) w).1 := by
    rintro a ⟨⟨hv, ⟨clients, hreg, hmem⟩, hself⟩, hdata, herr⟩
    obtain ⟨pre, post, hsplit⟩ := List.append_of_mem hmem
    rw [hsplit] at hreg
    rcases writeUsers_complete env userTracks sender pkt (m.members C) w a.user pre post
      a.client a.track hv hreg hself with ⟨b, hb, h1, h2, h3, h4⟩ | ⟨b, hb, _, _, hbr⟩
    · obtain ⟨_, _, w0, h5⟩ := writeUsers_sound env userTracks sender pkt _ w b hb
      rw [hok] at h5
      have hab : b = a := by
        cases a
        cases b
        simp_all
      exact hab ▸ hb
    · obtain ⟨_, _, w0, h5⟩ := writeUsers_sound env userTracks sender pkt _ w b hb
      rw [hok] at h5
      rw [h5] at hbr
      simp [breaksLoop] at hbr
  refine ⟨fun a => ⟨fun ha => ?_, key a⟩, ?_,
    (writeUsers_run env userTracks sender pkt (m.members C) w).1,
    (writeUsers_run env userTracks sender pkt (m.members C) w).2⟩
  · obtain ⟨h1, h2, w0, h3⟩ := writeUsers_sound env userTracks sender pkt _ w a ha
    exact ⟨h1, h2, by rw [h3, hok]⟩
  · intro d t clients hu hreg hmem hd
    exact key ⟨sender.UserId, d, t, pkt, none⟩
      ⟨⟨hu, ⟨clients, hreg, hmem⟩, fun h => hd h.2⟩, rfl, rfl⟩

/-- Example for claim C1: alice's connection "c0" sends to "room" over sinks that keep
what they are handed; alice's other connection and both of bob's receive the packet,
alice's "c0" (track 0) receives nothing. -/
theorem fanout_delivery_set_witness :
    (exampleMembership.userConversation "alice" = some "room" ∧
      ∀ w0 t b, ((recordingEnv (fun _ => none)).write w0 t b).1 = none) ∧
    ((∀ a, a ∈ (forwardPacket (recordingEnv (fun _ => none)) exampleMembership
          exampleRegistry ⟨"alice", "c0"⟩ 7 [1, 2] []).writes ↔
      (Eligible exampleRegistry (exampleMembership.members "room") ⟨"alice", "c0"⟩
          a.user a.client a.track ∧ a.data = [1, 2] ∧ a.err = none)) ∧
    (∀ d t clients, "alice" ∈ exampleMembership.members "room" →
      exampleRegistry "alice" = some clients → (d, t) ∈ clients → d ≠ "c0" →
      (⟨"alice", d, t, [1, 2], none⟩ : WriteAttempt) ∈
        (forwardPacket (recordingEnv (fun _ => none)) exampleMembership exampleRegistry
          ⟨"alice", "c0"⟩ 7 [1, 2] []).writes) ∧
    (forwardPacket (recordingEnv (fun _ => none)) exampleMembership exampleRegistry
        ⟨"alice", "c0"⟩ 7 [1, 2] []).sinks =
      applyWrites (recordingEnv (fun _ => none))
        (forwardPacket (recordingEnv (fun _ => none)) exampleMembership exampleRegistry
          ⟨"alice", "c0"⟩ 7 [1, 2] []).writes [] ∧
    Performed (recordingEnv (fun _ => none))
      (forwardPacket (recordingEnv (fun _ => none)) exampleMembership exampleRegistry
        ⟨"alice", "c0"⟩ 7 [1, 2] []).writes []) ∧
    (forwardPacket (recordingEnv (fun _ => none)) exampleMembership exampleRegistry
        ⟨"alice", "c0"⟩ 7 [1, 2] []).sinks =
      [(⟨3⟩, [1, 2]), (⟨1⟩, [1, 2]), (⟨2⟩, [1, 2])] :=
  ⟨⟨by decide, fun _ _ _ => rfl⟩,
   fanout_delivery_set (recordingEnv (fun _ => none)) exampleMembership exampleRegistry
     ⟨"alice", "c0"⟩ 7 [1, 2] [] "room" (by decide) (fun _ _ _ => rfl),
   by decide⟩

/-- Claim C5 as stated fails: with alice and bob in "room", bob's entries visited in
the order "d1", "d2", and the write to bob's "d1" failing with an error other than
`io.ErrClosedPipe`, bob's entry "d2" is eligible but no write is made for it; when the
same write fails with `io.ErrClosedPipe` instead, "d2" is written to, so the two kinds
of error are not handled alike. Over sinks that keep what they are handed, track 2 of
"d2" is handed nothing in the first case. -/
theorem fanout_isolation_counterexample :
    Eligible exampleRegistry (exampleMembership.members "room") ⟨"alice", "c0"⟩
      "bob" "d2" ⟨2⟩ ∧
    (∀ a ∈ (forwardPacket (failingEnv (.other "short write")) exampleMembership
        exampleRegistry ⟨"alice", "c0"⟩ 7 [1, 2] ()).writes,
      ¬(a.user = "bob" ∧ a.client = "d2")) ∧
    (⟨"bob", "d2", ⟨2⟩, [1, 2], none⟩ : WriteAttempt) ∈
      (forwardPacket (failingEnv .closedPipe) exampleMembership
        exampleRegistry ⟨"alice", "c0"⟩ 7 [1, 2] ()).writes ∧
    (forwardPacket (recordingEnv failsOnTrackOne) exampleMembership exampleRegistry
        ⟨"alice", "c0"⟩ 7 [1, 2] []).sinks = [(⟨3⟩, [1, 2]), (⟨1⟩, [1, 2])] := by
  refine ⟨⟨by decide, ⟨[("d1", ⟨1⟩), ("d2", ⟨2⟩)], by decide, by decide⟩, by decide⟩,
    by decide, by decide, by decide⟩

/-- Claim C5, amended. For any outcomes of the individual writes and any visiting order
of the client maps, one pass of the forwarding loop writes only the packet and only to
eligible entries; an eligible entry `(v, d)` is left out only if a write to an entry of
`v` visited before it returned an error other than `io.ErrClosedPipe` (which ends the
loop over the clients of `v`, not the loop over the users); and when every write
returns `nil` or `io.ErrClosedPipe`, every eligible entry is written to. These writes
are the calls of `track.Write` the pass makes: the sinks are left as those calls,
applied in order from the state before the pass, leave them, and each call returned the
error the write records. -/
theorem fanout_isolation {σ : Type} (env : Env σ) (m : Membership)
    (userTracks : Registry) (sender : RawClient) (start : Int) (pkt : Bytes) (w : σ)
    (C : String) (hconv : m.userConversation sender.UserId = some C) :
    (∀ a ∈ (forwardPacket env m userTracks sender start pkt w).writes,
      Eligible userTracks (m.members C) sender a.user a.client a.track ∧ a.data = pkt) ∧
    (∀ v pre d t post, v ∈ m.members C → userTracks v = some (pre ++ (d, t) :: post) →
      ¬(v = sender.UserId ∧ d = sender.ClientId) →
      (∃ a ∈ (forwardPacket env m userTracks sender start pkt w).writes,
        a.user = v ∧ a.client = d ∧ a.track = t ∧ a.data = pkt) ∨
      (∃ a ∈ (forwardPacket env m userTracks sender start pkt w).writes,
        a.user = v ∧ (a.client, a.track) ∈ pre ∧
          a.err ≠ none ∧ a.err ≠ some WriteError.closedPipe)) ∧
    ((∀ w0 t b, (env.write w0 t b).1 = none ∨
        (env.write w0 t b).1 = some WriteError.closedPipe) →
      ∀ v d t, Eligible userTracks (m.members C) sender v d t →
        ∃ a ∈ (forwardPacket env m userTracks sender start pkt w).writes,
          a.user = v ∧ a.client = d ∧ a.track = t ∧ a.data = pkt) ∧
    (forwardPacket env m userTracks sender start pkt w).sinks =
      applyWrites env (forwardPacket env m userTracks sender start pkt w).writes w ∧
    Performed env (forwardPacket env m userTracks sender start pkt w).writes w := by
  rw [forwardPacket_sinks env m userTracks sender start pkt w C hconv,
    forwardPacket_writes env m userTracks sender start pkt w C hconv]
  have second : ∀ v pre d t post, v ∈ m.members C →
      userTracks v = some (pre ++ (d, t) :: post) →
      ¬(v = sender.UserId ∧ d = sender.ClientId) →
      (∃ a ∈ (writeUsers env userTracks sender pkt (m.members C) w).1,
        a.user = v ∧ a.client = d ∧ a.track = t ∧ a.data = pkt) ∨
      (∃ a ∈ (writeUsers env userTracks sender pkt (m.members C) w).1,
        a.user = v ∧ (a.client, a.track) ∈ pre ∧
          a.err ≠ none ∧ a.err ≠ some WriteError.closedPipe) := by
    intro v pre d t post hv hreg hself
    rcases writeUsers_complete env userTracks sender pkt (m.members C) w v pre post d t
      hv hreg hself with h | ⟨a, ha, h1, h2, h3⟩
    · exact Or.inl h
    · exact Or.inr ⟨a, ha, h1, h2, (breaksLoop_iff a.err).mp h3⟩
  refine ⟨fun a ha => ?_, second, ?_,
    (writeUsers_run env userTracks sender pkt (m.members C) w).1,
    (writeUsers_run env userTracks sender pkt (m.members C) w).2⟩
  · obtain ⟨h1, h2, _⟩ := writeUsers_sound env userTracks sender pkt _ w a ha
    exact ⟨h1, h2⟩
  · rintro hsoft v d t ⟨hv, ⟨clients, hreg, hmem⟩, hself⟩
    obtain ⟨pre, post, hsplit⟩ := List.append_of_mem hmem
    rw [hsplit] at hreg
    rcases second v pre d t post hv hreg hself with h | ⟨a, ha, _, _, hn, hc⟩
    · exact h
    · obtain ⟨_, _, w0, h5⟩ := writeUsers_sound env userTracks sender pkt _ w a ha
      rcases hsoft w0 a.track pkt with e | e
      · exact absurd (h5.trans e) hn
      · exact absurd (h5.trans e) hc

/-- Example for claim C5 as amended: over sinks that keep what they are handed, the
write to bob's first entry (track 1) fails with an error other than `io.ErrClosedPipe`;
alice's other connection and bob's first entry are handed the packet, bob's second
entry is not. -/
theorem fanout_isolation_witness :
    exampleMembership.userConversation "alice" = some "room" ∧
    ((∀ a ∈ (forwardPacket (recordingEnv failsOnTrackOne) exampleMembership
        exampleRegistry ⟨"alice", "c0"⟩ 7 [1, 2] []).writes,
      Eligible exampleRegistry (exampleMembership.members "room") ⟨"alice", "c0"⟩
        a.user a.client a.track ∧ a.data = [1, 2]) ∧
    (∀ v pre d t post, v ∈ exampleMembership.members "room" →
      exampleRegistry v = some (pre ++ (d, t) :: post) →
      ¬(v = "alice" ∧ d = "c0") →
      (∃ a ∈ (forwardPacket (recordingEnv failsOnTrackOne) exampleMembership
          exampleRegistry ⟨"alice", "c0"⟩ 7 [1, 2] []).writes,
        a.user = v ∧ a.client = d ∧ a.track = t ∧ a.data = [1, 2]) ∨
      (∃ a ∈ (forwardPacket (recordingEnv failsOnTrackOne) exampleMembership
          exampleRegistry ⟨"alice", "c0"⟩ 7 [1, 2] []).writes,
        a.user = v ∧ (a.client, a.track) ∈ pre ∧
          a.err ≠ none ∧ a.err ≠ some WriteError.closedPipe)) ∧
    ((∀ w0 t b, ((recordingEnv failsOnTrackOne).write w0 t b).1 = none ∨
        ((recordingEnv failsOnTrackOne).write w0 t b).1 = some WriteError.closedPipe) →
      ∀ v d t, Eligible exampleRegistry (exampleMembership.members "room")
          ⟨"alice", "c0"⟩ v d t →
        ∃ a ∈ (forwardPacket (recordingEnv failsOnTrackOne) exampleMembership
            exampleRegistry ⟨"alice", "c0"⟩ 7 [1, 2] []).writes,
          a.user = v ∧ a.client = d ∧ a.track = t ∧ a.data = [1, 2]) ∧
    (forwardPacket (recordingEnv failsOnTrackOne) exampleMembership exampleRegistry
        ⟨"alice", "c0"⟩ 7 [1, 2] []).sinks =
      applyWrites (recordingEnv failsOnTrackOne)
        (forwardPacket (recordingEnv failsOnTrackOne) exampleMembership exampleRegistry
          ⟨"alice", "c0"⟩ 7 [1, 2] []).writes [] ∧
    Performed (recordingEnv failsOnTrackOne)
      (forwardPacket (recordingEnv failsOnTrackOne) exampleMembership exampleRegistry
        ⟨"alice", "c0"⟩ 7 [1, 2] []).writes []) ∧
    (forwardPacket (recordingEnv failsOnTrackOne) exampleMembership exampleRegistry
        ⟨"alice", "c0"⟩ 7 [1, 2] []).sinks = [(⟨3⟩, [1, 2]), (⟨1⟩, [1, 2])] :=
  ⟨by decide,
   fanout_isolation (recordingEnv failsOnTrackOne) exampleMembership exampleRegistry
     ⟨"alice", "c0"⟩ 7 [1, 2] [] "room" (by decide),
   by decide⟩

/-- Claim C8. `GetAuth` runs the wrapped handler if and only if the `X-User-Claim`
header is non-empty, `json.Unmarshal` decodes it, and both decoded fields are
non-empty: a handler that panics whenever it is run makes the route panic exactly in
that case; then the result is the wrapped handler's, run on the request whose context
holds the decoded `RawClient`; in every other case the response is 400, the state is
untouched and the result does not depend on the wrapped handler. -/
theorem getAuth_gate {σ : Type} (unmarshal : String → Option RawClient) (r : Request)
    (s : σ) :
    ((GetAuth unmarshal (fun _ _ => none) r s = none) ↔
      ∃ client, r.headerGet "X-User-Claim" ≠ "" ∧
        unmarshal (r.headerGet "X-User-Claim") = some client ∧
        client.UserId ≠ "" ∧ client.ClientId ≠ "") ∧
    (∀ client, r.headerGet "X-User-Claim" ≠ "" →
      unmarshal (r.headerGet "X-User-Claim") = some client →
      client.UserId ≠ "" → client.ClientId ≠ "" →
      ∀ next : Handle σ,
        GetAuth unmarshal next r s = next { r with user := some client } s) ∧
    ((¬∃ client, r.headerGet "X-User-Claim" ≠ "" ∧
        unmarshal (r.headerGet "X-User-Claim") = some client ∧
        client.UserId ≠ "" ∧ client.ClientId ≠ "") →
      ∀ next : Handle σ, GetAuth unmarshal next r s = some (httpError 400, s)) := by
  refine ⟨?_, ?_, ?_⟩
  · by_cases hua : r.headerGet "X-User-Claim" = ""
    · simp [GetAuth, hua]
    · cases hdec : unmarshal (r.headerGet "X-User-Claim") with
      | none => simp [GetAuth, hua, hdec]
      | some client =>
        by_cases hempty : client.UserId = "" ∨ client.ClientId = ""
        · have hres : GetAuth unmarshal (fun _ _ => none) r s = some (httpError 400, s) := by
            simp [GetAuth, hua, hdec, hempty]
          rw [hres]
          constructor
          · intro h
            exact Option.noConfusion h
          · rintro ⟨c, _, hc, h1, h2⟩
            cases Option.some.inj hc
            rcases hempty with e | e
            · exact absurd e h1
            · exact absurd e h2
        · have hres : GetAuth unmarshal (fun _ _ => none) r s = none := by
            simp [GetAuth, hua, hdec, hempty]
          rw [hres]
          constructor
          · intro _
            exact ⟨client, hua, rfl, fun e => hempty (Or.inl e), fun e => hempty (Or.inr e)⟩
          · intro _
            trivial
  · intro client hua hdec h1 h2 next
    have hempty : ¬(client.UserId = "" ∨ client.ClientId = "") := by
      rintro (e | e)
      · exact h1 e
      · exact h2 e
    simp [GetAuth, hua, hdec, hempty]
  · intro hno next
    by_cases hua : r.headerGet "X-User-Claim" = ""
    · simp [GetAuth, hua]
    · cases hdec : unmarshal (r.headerGet "X-User-Claim") with
      | none => simp [GetAuth, hua, hdec]
      | some client =>
        by_cases hempty : client.UserId = "" ∨ client.ClientId = ""
        · simp [GetAuth, hua, hdec, hempty]
        · exact absurd ⟨client, hua, hdec, fun e => hempty (Or.inl e),
            fun e => hempty (Or.inr e)⟩ hno

/-- Example for claim C8: the join route on a request that carries alice's claim
runs `JoinConversation` with alice's identity in the context. -/
theorem getAuth_gate_witness :
    (exampleRequest.headerGet "X-User-Claim" ≠ "" ∧
      exampleUnmarshal (exampleRequest.headerGet "X-User-Claim") = some ⟨"alice", "c1"⟩) ∧
    GetAuth exampleUnmarshal (JoinConversation "http://perm" (fun _ => .response 200) "x")
        exampleRequest initMembership =
      JoinConversation "http://perm" (fun _ => .response 200) "x"
        { exampleRequest with user := some ⟨"alice", "c1"⟩ } initMembership :=
  ⟨⟨by decide, by decide⟩,
   (getAuth_gate exampleUnmarshal exampleRequest initMembership).2.1 ⟨"alice", "c1"⟩
     (by decide) (by decide) (by decide) (by decide) _⟩

/-- Scenario of the spec: without the identity header the join route answers 400 and
neither asks the permission service nor touches the maps, whatever they are. -/
theorem join_route_without_header (unmarshal : String → Option RawClient)
    (permissionsHost : String) (httpGet : String → GetResult) (conversationid : String)
    (m : Membership) :
    GetAuth unmarshal (JoinConversation permissionsHost httpGet conversationid)
      ⟨[], none⟩ m = some (httpError 400, m) := by
  simp [GetAuth, Request.headerGet]

/-! ## JoinConversation: the failure paths -/

/-- A transport error of the permission call gives 401 and leaves both maps as they
were. -/
theorem join_transport_error (permissionsHost : String) (httpGet : String → GetResult)
    (user : RawClient) (conversationid : String) (m : Membership)
    (hid : conversationid ≠ "")
    (hget : httpGet (permissionURL permissionsHost user.UserId conversationid) =
      .transportError) :
    JoinConversation permissionsHost httpGet conversationid (authedRequest user) m =
      some (httpError 401, m) := by
  simp [JoinConversation, authedRequest, hid, hget]

/-- The status code of the permission service's response is never looked at. -/
theorem join_status_ignored (permissionsHost : String) (user : RawClient)
    (conversationid : String) (m : Membership) (st : Nat) :
    JoinConversation permissionsHost (fun _ => .response st) conversationid
        (authedRequest user) m =
      JoinConversation permissionsHost (fun _ => .response 200) conversationid
        (authedRequest user) m := by
  simp [JoinConversation, authedRequest]

/-- Claim C4, the code at the failing input: the permission service answers 403 to
alice's join of "room1" and `JoinConversation` still responds 200 with an empty body
and records alice in "room1". -/
theorem join_forbidden_still_joins :
    (JoinConversation "http://perm" (fun _ => .response 403) "room1"
        (authedRequest ⟨"alice", "c1"⟩) initMembership).map
      (fun r => (r.1, r.2.userConversation "alice", r.2.members "room1")) =
      some (⟨200, ""⟩, some "room1", ["alice"]) := by
  decide

/-- Claim C10, the code at the failing inputs: alice is recorded in "x" but is not in
its list. When the list is `["bob"]`, alice's permitted join of "y" returns 200 and
removes bob from "x"; when the list is empty, the call panics. -/
theorem join_removes_wrong_member :
    (JoinConversation "http://perm" (fun _ => .response 200) "y"
        (authedRequest ⟨"alice", "c1"⟩) staleMembership).map
      (fun r => (r.1, r.2.members "x", r.2.userConversation "bob")) =
      some (⟨200, ""⟩, [], some "x") ∧
    (JoinConversation "http://perm" (fun _ => .response 200) "y"
        (authedRequest ⟨"alice", "c1"⟩) staleEmptyMembership).isNone = true := by
  constructor <;> decide

/-! ## Registration: the claim's failing input -/

/-- Claim C7, the code at the failing input: on the `userTracks` that `main` creates,
the registration of any connection panics, no user having an inner map. -/
theorem registerTrack_initial_panics (user : RawClient) (track : Track) :
    registerTrack initRegistry user track = none := by
  rfl

theorem assign_lookup_same (clients : Clients) (clientId : String) (track : Track) :
    (clients.assign clientId track).lookup clientId = some track := by
  induction clients with
  | nil => simp [Clients.assign, Clients.lookup]
  | cons kv rest ih =>
    obtain ⟨k, v⟩ := kv
    by_cases hk : k = clientId
    · simp [Clients.assign, Clients.lookup, hk]
    · simpa [Clients.assign, Clients.lookup, hk, List.find?_cons] using ih

theorem assign_lookup_other (clients : Clients) (clientId d : String) (track : Track)
    (hd : d ≠ clientId) :
    (clients.assign clientId track).lookup d = clients.lookup d := by
  induction clients with
  | nil =>
    have : ¬clientId = d := fun e => hd e.symm
    simp [Clients.assign, Clients.lookup, this]
  | cons kv rest ih =>
    obtain ⟨k, v⟩ := kv
    by_cases hk : k = clientId
    · have hkd : ¬k = d := fun e => hd (e ▸ hk)
      simp [Clients.assign, Clients.lookup, hk, List.find?_cons, hkd, hk ▸ hkd]
    · by_cases hkd : k = d
      · subst hkd
        simp [Clients.assign, Clients.lookup, hk, List.find?_cons]
      · simpa [Clients.assign, Clients.lookup, hk, List.find?_cons, hkd] using ih

/-- When the user already has an inner map, registration completes, the map holds the
new track under the client id, and its other client ids are as before. -/
theorem registerTrack_existing (userTracks : Registry) (user : RawClient) (track : Track)
    (clients : Clients) (h : userTracks user.UserId = some clients) :
    ∃ reg2 clients2, registerTrack userTracks user track = some reg2 ∧
      reg2 user.UserId = some clients2 ∧ clients2.lookup user.ClientId = some track ∧
      ∀ d, d ≠ user.ClientId → clients2.lookup d = clients.lookup d := by
  refine ⟨userTracks.set user.UserId (clients.assign user.ClientId track),
    clients.assign user.ClientId track, by simp [registerTrack, h],
    GoMap.set_same _ _ _, assign_lookup_same _ _ _, ?_⟩
  intro d hd
  exact assign_lookup_other _ _ _ _ hd

/-! ## ICE server list: the claim's failing input -/

/-- Claim C9, the code at the failing input: the content "stun:a", line feed, "stun:b"
is not split; the URL list has the whole content as its only element. The same two
URLs with a backslash and the letter n between them are split. -/
theorem iceServers_not_split_at_newline :
    iceServerURLs "stun:a\nstun:b" = ["stun:a\nstun:b"] ∧
    (iceServerURLs "stun:a\nstun:b").length = 1 ∧
    iceServerURLs (String.mk ("stun:a".toList ++ [Char.ofNat 92, 'n'] ++ "stun:b".toList)) =
      ["stun:a", "stun:b"] := by
  refine ⟨?_, ?_, ?_⟩ <;> decide

theorem splitScan_no_match (sep : List Char) (c0 : Char) (l cur : List Char)
    (h : c0 ∉ l) :
    splitScan (c0 :: sep) l 0 cur = [cur.reverse ++ l] := by
  induction l generalizing cur with
  | nil => simp [splitScan]
  | cons c cs ih =>
    have hc : ¬c0 = c := fun e => h (by simp [e])
    have hcs : c0 ∉ cs := fun e => h (by simp [e])
    simp [splitScan, List.isPrefixOf, hc, ih (c :: cur) hcs]

/-- A file content without a backslash is never split, however many lines it has. -/
theorem iceServers_without_backslash (fileString : String)
    (h : Char.ofNat 92 ∉ fileString.toList) :
    iceServerURLs fileString = [fileString] := by
  unfold iceServerURLs Split iceSeparator
  have hsep : (String.mk [Char.ofNat 92, 'n']).toList = Char.ofNat 92 :: ['n'] := rfl
  rw [hsep, if_neg (by simp), splitScan_no_match _ _ _ _ h]
  simp

end BeepWebrtc
